import Mathlib

/-!
Shallow embedding of the EdgeShiftAI task-distribution engine
(`src/core/scheduler.py` and the registration handler of
`src/core/device.py`), together with theorems checking the
specification's claims against it.

Python dictionaries are modelled as association lists with
insertion-order semantics (`dictSet` updates in place, else appends),
Python floats as exact rationals, Python `int()` truncation as
`pyInt`, and Python sets as `Finset`.
-/

namespace EdgeShift

abbrev DeviceId := String
abbrev TaskId := String

/-- A task dictionary as produced by the partitioner: `{id, weight, data}`
(the opaque `data` payload is never inspected by the scheduler and is
omitted). -/
structure Task where
  id : TaskId
  weight : ℚ
  deriving DecidableEq, Repr

/-- A device profile dictionary: `cpu_percent`, `memory_percent` and an
optional `battery` entry (as read with `.get`). -/
structure Profile where
  cpu_percent : ℚ
  memory_percent : ℚ
  battery : Option ℚ
  deriving DecidableEq, Repr

/-- Python dict assignment `d[k] = v`: replace the value in place if the
key is present, otherwise append the new binding at the end. -/
def dictSet {κ β : Type} [BEq κ] (k : κ) (v : β) (l : List (κ × β)) : List (κ × β) :=
  if l.any (fun p => p.1 == k) then
    l.map (fun p => if p.1 == k then (k, v) else p)
  else
    l ++ [(k, v)]

/-- Python dict deletion `del d[k]`. -/
def dictErase {κ β : Type} [BEq κ] (k : κ) (l : List (κ × β)) : List (κ × β) :=
  l.filter (fun p => ! (p.1 == k))

/-- Python `int()` on a rational: truncation toward zero. -/
def pyInt (q : ℚ) : ℤ :=
  if 0 ≤ q then ⌊q⌋ else ⌈q⌉

/-- One step of the stable descending insertion used to model Python's
stable `sorted(..., reverse=True)`: `x` is inserted after every element
whose key is strictly greater, and before the first element whose key is
less than or equal (so earlier-listed elements win ties). -/
def insertDesc {α : Type} (key : α → ℚ) (x : α) : List α → List α
  | [] => [x]
  | y :: ys => if key x < key y then y :: insertDesc key x ys else x :: y :: ys

/-- Python's stable `sorted(l, key=key, reverse=True)`. -/
def sortDesc {α : Type} (key : α → ℚ) : List α → List α
  | [] => []
  | x :: xs => insertDesc key x (sortDesc key xs)

/-- The battery-bonus ladder inside `_calculate_device_score`
(`scheduler.py` lines 39-47): absent battery contributes nothing. -/
def batteryBonus : Option ℚ → ℚ
  | none => 0
  | some b => if b > 80 then 15 else if b > 50 then 10 else if b > 20 then 5 else 0

/-- `TaskScheduler._calculate_device_score` (`scheduler.py` lines 27-51).
A falsy profile (`None` or the empty dict, modelled as `none`) scores 0. -/
def calculate_device_score : Option Profile → ℚ
  | none => 0
  | some p =>
      0.5 * (100 - p.cpu_percent) + 0.4 * (100 - p.memory_percent)
        + 0.1 * batteryBonus p.battery

/-- A peer record as seen through `local_node.get_available_peers()`:
its liveness `status` string and its (possibly absent or empty, both
modelled as `none`) profile dictionary. -/
structure PeerInfo where
  status : String
  profile : Option Profile
  deriving DecidableEq, Repr

/-- The slice of local-node state that `get_device_scores` reads. -/
structure NodeState where
  id : DeviceId
  device_status : String
  profile : Option Profile
  peers : List (DeviceId × PeerInfo)
  deriving DecidableEq, Repr

/-- `TaskScheduler.get_device_scores` (`scheduler.py` lines 10-25): the
local device when Active, then every Active peer with a truthy profile. -/
def get_device_scores (n : NodeState) : List (DeviceId × ℚ) :=
  let base : List (DeviceId × ℚ) :=
    if n.device_status = "Active" then [(n.id, calculate_device_score n.profile)] else []
  n.peers.foldl
    (fun sc pr =>
      if pr.2.status = "Active" ∧ pr.2.profile.isSome then
        dictSet pr.1 (calculate_device_score pr.2.profile) sc
      else sc)
    base

/-- The even-split branch of `distribute_tasks` (`scheduler.py` lines
87-95): the `for i, (device_id, _) in enumerate(sorted_devices)` loop is
a walk over the device list with a running index `i`, and device `i`
receives the slice
`sorted_tasks[i*q + min i r : i*q + min i r + q + (1 if i < r else 0)]`. -/
def zeroSplit (q r : ℕ) (sortedTasks : List Task) :
    List (DeviceId × ℚ) → ℕ → List (DeviceId × List Task)
  | [], _ => []
  | d :: devs, i =>
      (d.1, (sortedTasks.drop (i * q + min i r)).take (q + if i < r then 1 else 0)) ::
        zeroSplit q r sortedTasks devs (i + 1)

/-- The proportional branch of `distribute_tasks` (`scheduler.py` lines
96-119).  `ts` is the still-unassigned suffix of the weight-sorted task
list and `remaining` its length; the loop body computes
`int(score/total * n)`, forces at least 1 while tasks remain, caps by
`remaining`, slices, and breaks once `remaining` reaches 0. -/
def propLoop (n : ℕ) (total : ℚ) :
    List (DeviceId × ℚ) → List Task → ℕ → List (DeviceId × List Task)
  | [], _, _ => []
  | (d, s) :: devs, ts, remaining =>
      let count0 : ℤ := pyInt (s / total * (n : ℚ))
      let count1 : ℤ := if 0 < remaining then max count0 1 else 0
      let count : ℕ := min count1.toNat remaining
      (d, ts.take count) ::
        (if remaining - count = 0 then []
         else propLoop n total devs (ts.drop count) (remaining - count))

/-- `TaskScheduler.distribute_tasks` (`scheduler.py` lines 53-124),
parameterised by the score table that `get_device_scores()` returned. -/
def distribute_tasks (scores : List (DeviceId × ℚ)) (task_list : List Task) :
    List (DeviceId × List Task) :=
  let sorted_devices := sortDesc (fun p => p.2) scores
  if sorted_devices = [] then []
  else
    let sorted_tasks := sortDesc (fun t => t.weight) task_list
    let total_score := (sorted_devices.map (fun p => p.2)).sum
    if total_score = 0 then
      zeroSplit (sorted_tasks.length / sorted_devices.length)
        (sorted_tasks.length % sorted_devices.length) sorted_tasks sorted_devices 0
    else
      propLoop sorted_tasks.length total_score sorted_devices sorted_tasks sorted_tasks.length

/-- Scheduler state mutated by `distribute_tasks` / `reassign_tasks`:
the current assignment dict and the set of task ids ever reassigned. -/
structure SchedState where
  task_assignments : List (DeviceId × List Task)
  reassigned_tasks : Finset TaskId
  deriving DecidableEq

/-- The pulling loop of `reassign_tasks` (`scheduler.py` lines 189-193):
walk the failed-device list, extend the pending pool with each failed
device's entry and delete that entry from the assignment dict. -/
def pullLoop : List DeviceId → List (DeviceId × List Task) →
    List Task × List (DeviceId × List Task)
  | [], a => ([], a)
  | d :: ds, a =>
      match a.lookup d with
      | some ts =>
          let r := pullLoop ds (dictErase d a)
          (ts ++ r.1, r.2)
      | none => pullLoop ds a

/-- `reassignments[device_id].append(task)` with the preceding
`if device_id not in reassignments: reassignments[device_id] = []`
(`scheduler.py` lines 225-227). -/
def dictAppend (d : DeviceId) (t : Task) (l : List (DeviceId × List Task)) :
    List (DeviceId × List Task) :=
  if l.any (fun p => p.1 == d) then
    l.map (fun p => if p.1 == d then (p.1, p.2 ++ [t]) else p)
  else
    l ++ [(d, [t])]

/-- `sorted_devices[i % len(sorted_devices)][0]` for a non-empty device
list (the call sites guarantee non-emptiness). -/
def nthDevice (sorted : List (DeviceId × ℚ)) (i : ℕ) : DeviceId :=
  ((sorted.get? (i % sorted.length)).getD ("", 0)).1

/-- The round-robin loop of `reassign_tasks` (`scheduler.py` lines
222-227): the task at index `i` is appended to the entry of
`sorted_devices[i % k]`. -/
def rrLoop (sorted : List (DeviceId × ℚ)) :
    ℕ → List Task → List (DeviceId × List Task) → List (DeviceId × List Task)
  | _, [], acc => acc
  | i, tk :: ts, acc => rrLoop sorted (i + 1) ts (dictAppend (nthDevice sorted i) tk acc)

/-- The merge step of `reassign_tasks` (`scheduler.py` lines 230-234):
extend an existing entry, or install the new entry. -/
def dictExtend (d : DeviceId) (ts : List Task) (a : List (DeviceId × List Task)) :
    List (DeviceId × List Task) :=
  if a.any (fun p => p.1 == d) then
    a.map (fun p => if p.1 == d then (p.1, p.2 ++ ts) else p)
  else
    a ++ [(d, ts)]

/-- `TaskScheduler.reassign_tasks` (`scheduler.py` lines 183-236).
`healthScores` is the table that the inner `get_device_scores()` call
returns at this moment; the function yields the `reassignments` dict it
returns together with the updated scheduler state. -/
def reassign_tasks (failed : List DeviceId) (healthScores : List (DeviceId × ℚ))
    (st : SchedState) : List (DeviceId × List Task) × SchedState :=
  if failed = [] then ([], st)
  else
    let pulled := pullLoop failed st.task_assignments
    if pulled.1 = [] then ([], { st with task_assignments := pulled.2 })
    else
      let reassignedIds := pulled.1.foldl (fun s tk => insert tk.id s) st.reassigned_tasks
      let device_scores := failed.foldl (fun sc d => dictErase d sc) healthScores
      if device_scores = [] then
        ([], { task_assignments := pulled.2, reassigned_tasks := reassignedIds })
      else
        let sorted_devices := sortDesc (fun p => p.2) device_scores
        let reassignments := rrLoop sorted_devices 0 pulled.1 []
        let ta2 := reassignments.foldl (fun a p => dictExtend p.1 p.2 a) pulled.2
        (reassignments, { task_assignments := ta2, reassigned_tasks := reassignedIds })

/-- `results.update(d)`: fold dict assignment over the update's items. -/
def dictUpdate (upd res : List (TaskId × String)) : List (TaskId × String) :=
  upd.foldl (fun r p => dictSet p.1 p.2 r) res

/-- Remove every listed device from the pending list
(`scheduler.py` lines 273-275): `list.remove` of present elements. -/
def removeAll (ds pending : List DeviceId) : List DeviceId :=
  ds.foldl (fun p d => p.erase d) pending

/-- The observations one iteration of the `collect_results` polling loop
makes of its environment: the value of `time.time()` at the loop check,
the failed-device list `check_device_health()` returns, the score table
visible to a `reassign_tasks` call, and each peer's reply to
`collect_result_from_peer`. -/
structure IterEnv where
  now : ℚ
  failed : List DeviceId
  healthScores : List (DeviceId × ℚ)
  peerResults : DeviceId → Option (List (TaskId × String))

/-- Mutable state of the `collect_results` loop. -/
structure CollectState where
  results : List (TaskId × String)
  pending : List DeviceId
  sched : SchedState

/-- One body execution of the `collect_results` while loop
(`scheduler.py` lines 263-286): handle failures (reassign and drop the
failed devices from `pending`; the redispatch over the network does not
touch collector state), then poll each still-pending device. -/
def collectIter (e : IterEnv) (st : CollectState) : CollectState :=
  let st1 :=
    if e.failed = [] then st
    else
      let r := reassign_tasks e.failed e.healthScores st.sched
      { st with sched := r.2, pending := removeAll e.failed st.pending }
  let polled :=
    st1.pending.foldl
      (fun (acc : List (TaskId × String) × List DeviceId) d =>
        match e.peerResults d with
        | some rs => (dictUpdate rs acc.1, acc.2.erase d)
        | none => acc)
      (st1.results, st1.pending)
  { st1 with results := polled.1, pending := polled.2 }

/-- The `while time.time() - start_time < timeout and pending_devices`
loop (`scheduler.py` line 262), driven by the finite trace of iteration
environments; theorems supply traces long enough that the trace never
runs out before the deadline. -/
def collectLoop (start timeout : ℚ) : List IterEnv → CollectState → CollectState
  | [], st => st
  | e :: rest, st =>
      if e.now - start < timeout ∧ st.pending ≠ [] then
        collectLoop start timeout rest (collectIter e st)
      else st

/-- `TaskScheduler.collect_results` (`scheduler.py` lines 238-288):
seed `pending` with the assignment's keys, fold in the local node's
results when the local node is pending, run the polling loop, and
return the `results` dict — and nothing else. -/
def collect_results (task_assignments : List (DeviceId × List Task)) (timeout : ℚ)
    (localId : DeviceId) (localResults : List (TaskId × String)) (start : ℚ)
    (envs : List IterEnv) (sched : SchedState) : List (TaskId × String) :=
  let pending0 := task_assignments.map (fun p => p.1)
  let init : CollectState :=
    if localId ∈ pending0 then
      { results := dictUpdate localResults [], pending := pending0.erase localId,
        sched := sched }
    else
      { results := [], pending := pending0, sched := sched }
  (collectLoop start timeout envs init).results

/-- Modelled from the spec: the "set of still-missing task ids" that
§4.7 and the CollectionTimeout taxonomy entry say `collect()` returns
alongside the partial result map — the ids of assigned tasks that have
no entry in the gathered results.  No such value is produced anywhere
in `src/`. -/
def missingIds (task_assignments : List (DeviceId × List Task))
    (results : List (TaskId × String)) : List TaskId :=
  ((task_assignments.map (fun p => p.2)).flatten.map Task.id).filter
    (fun i => ¬ results.any (fun r => r.1 == i))

/-- Capabilities dictionaries pass through registration opaquely. -/
abbrev Capabilities := List (String × String)

/-- An entry of the coordinator's `self.peers` list
(`device.py` lines 148-154): the raw message fields are stored. -/
structure RegPeer where
  url : String
  ptype : String
  address : Option String
  port : Option ℕ
  capabilities : Capabilities
  deriving DecidableEq, Repr

/-- The directory state `_process_message` can read and write. -/
structure DeviceState where
  is_coordinator : Bool
  node_id : String
  peers : List RegPeer
  worker_capabilities : List (String × Capabilities)
  deriving DecidableEq, Repr

/-- The `payload` dict of a task message, read with `.get`. -/
structure Payload where
  ptype : Option String
  pdata : Option String
  deriving DecidableEq, Repr

/-- An incoming message dict: every field is read with `.get` and may be
absent. -/
structure Msg where
  action : Option String
  node_type : Option String
  address : Option String
  port : Option ℕ
  capabilities : Option Capabilities
  task_id : Option String
  payload : Option Payload
  deriving DecidableEq, Repr

/-- Python string interpolation of a possibly-`None` value. -/
def pyStr : Option String → String
  | some s => s
  | none => "None"

/-- Python string interpolation of a possibly-`None` integer. -/
def pyStrNat : Option ℕ → String
  | some n => toString n
  | none => "None"

/-- The reply dict of `_process_message`, as a closed union of the four
shapes the handler can build. -/
inductive Reply where
  | okReply (node_type : String)
  | registered (coordinator_id : String)
  | completed (task_id result : String)
  | errorReply (message : String)
  deriving DecidableEq, Repr

/-- The `status` field of a reply dict. -/
def Reply.status : Reply → String
  | .okReply _ => "ok"
  | .registered _ => "registered"
  | .completed _ _ => "completed"
  | .errorReply _ => "error"

/-- `EdgeDevice._process_message` (`device.py` lines 127-189), returning
the reply and the updated directory state.  `_setup_connection_to_peer`
only opens a network connection and leaves the directory alone. -/
def process_message (st : DeviceState) (m : Msg) : Reply × DeviceState :=
  let action := m.action.getD ""
  if action = "ping" then
    (.okReply (if st.is_coordinator then "coordinator" else "worker"), st)
  else if action = "register" ∧ st.is_coordinator then
    if m.node_type = some "worker" then
      let worker_url := "tcp://" ++ pyStr m.address ++ ":" ++ pyStrNat m.port
      if st.peers.all (fun p => ! (p.url == worker_url)) then
        (.registered st.node_id,
         { st with
            peers := st.peers ++
              [⟨worker_url, "worker", m.address, m.port, m.capabilities.getD []⟩],
            worker_capabilities :=
              dictSet worker_url (m.capabilities.getD []) st.worker_capabilities })
      else
        (.registered st.node_id, st)
    else
      (.errorReply "Invalid registration", st)
  else if action = "task" ∧ ¬ st.is_coordinator then
    let task_id := m.task_id.getD "unknown"
    let p := m.payload.getD ⟨none, none⟩
    let ttype := p.ptype.getD ""
    let result := if ttype = "echo" then p.pdata.getD "" else "Unknown task type: " ++ ttype
    (.completed task_id result, st)
  else
    (.errorReply ("Unknown action: " ++ action), st)

/-! ### Concrete inputs used by evaluation theorems -/

/-- A task with id `"t<i>"` and the given weight. -/
def exTask (i : ℕ) (w : ℚ) : Task := ⟨"t" ++ toString i, w⟩

/-- Two peers whose scores are in ratio 3:1. -/
def c1Scores : List (DeviceId × ℚ) := [("A", 3), ("B", 1)]

/-- Five unit-weight tasks. -/
def c1Tasks : List Task := [exTask 1 1, exTask 2 1, exTask 3 1, exTask 4 1, exTask 5 1]

/-- The three peers of the spec's worked example, scored 50/30/20. -/
def c5Scores : List (DeviceId × ℚ) := [("A", 50), ("B", 30), ("C", 20)]

/-- The five tasks of the spec's worked example, weights 5..1. -/
def c5Tasks : List Task := [exTask 1 5, exTask 2 4, exTask 3 3, exTask 4 2, exTask 5 1]

/-- A scheduler whose assignment gives task `t1` to device `A`. -/
def c3State : SchedState := ⟨[("A", [exTask 1 1])], ∅⟩

/-- Assignment `{A:[t1], B:[t2]}`. -/
def c4a1 : List (DeviceId × List Task) := [("A", [exTask 1 1]), ("B", [exTask 2 1])]

/-- Assignment `{A:[t1]}`. -/
def c4a2 : List (DeviceId × List Task) := [("A", [exTask 1 1])]

/-- A two-iteration trace: at time 0 peer `A` answers with `t1`'s result
and `B` stays silent; at time 100 the deadline has long expired. -/
def c4envs : List IterEnv :=
  [⟨0, [], [], fun d => if d = "A" then some [("t1", "r")] else none⟩,
   ⟨100, [], [], fun _ => none⟩]

/-- A coordinator that already registered the worker at
`tcp://1.2.3.4:5555`. -/
def c8State : DeviceState :=
  ⟨true, "coord",
   [⟨"tcp://1.2.3.4:5555", "worker", some "1.2.3.4", some 5555, []⟩],
   [("tcp://1.2.3.4:5555", [])]⟩

/-- A second, duplicate registration request for that same worker. -/
def c8DupMsg : Msg :=
  ⟨some "register", some "worker", some "1.2.3.4", some 5555, some [], none, none⟩

/-- Suffix-local view of the even-split slicing: each device takes
`q` tasks, plus one extra while `r` extras are left.  `zeroSplit` is
proved equal to this (`zeroSplit_eq_evenChunks`); it exists to give the
even-split branch an induction-friendly shape. -/
def evenChunks (q : ℕ) : ℕ → List (DeviceId × ℚ) → List Task → List (DeviceId × List Task)
  | _, [], _ => []
  | r, d :: devs, ts =>
      (d.1, ts.take (q + if 0 < r then 1 else 0)) ::
        evenChunks q (r - 1) devs (ts.drop (q + if 0 < r then 1 else 0))

/-- Two peers, both scored zero. -/
def c7Scores : List (DeviceId × ℚ) := [("A", 0), ("B", 0)]

/-- Three unit-weight tasks. -/
def c7Tasks : List Task := [exTask 1 1, exTask 2 1, exTask 3 1]

/-- Assignment `{A:[t1,t2], B:[t3]}` with nothing reassigned yet. -/
def c2State : SchedState := ⟨[("A", [exTask 1 1, exTask 2 1]), ("B", [exTask 3 1])], ∅⟩

/-- A score table where failed `A` still appears next to healthy `B`
and `C`. -/
def c2Scores : List (DeviceId × ℚ) := [("A", 5), ("B", 10), ("C", 1)]

/-! ### Theorems -/

/-- C1: the claim says every submitted task is covered exactly once for
any non-empty task list and non-empty score table, but with scores
`{A:3, B:1}` and five unit-weight tasks the proportional loop assigns
`int(3/4*5) = 3` tasks to `A` and `min(max(int(1/4*5),1),2) = 1` task to
`B`, then runs out of devices: only 4 of the 5 tasks are assigned and
`t5` is silently dropped.  (Python float arithmetic is exact at this
input, so the rational model reproduces it bit-for-bit.) -/
theorem distribute_tasks_misses_a_task :
    ((distribute_tasks c1Scores c1Tasks).map (fun p => p.2.length)).sum = 4 ∧
    c1Tasks.length = 5 ∧
    (distribute_tasks c1Scores c1Tasks).lookup "A" =
      some [exTask 1 1, exTask 2 1, exTask 3 1] ∧
    (distribute_tasks c1Scores c1Tasks).lookup "B" = some [exTask 4 1] := by
  norm_num [distribute_tasks, sortDesc, insertDesc, propLoop, zeroSplit, pyInt,
    c1Scores, c1Tasks, exTask, List.lookup]
  decide

/-- C5: the claim (following the spec's worked example) says `C`
receives the remaining 2 tasks of weights 2 and 1, but the code has no
remainder step: `C`'s count is `int(0.2*5) = 1`, so `C` receives only
the weight-2 task and the weight-1 task is dropped — the assignment is
`A:[5,4], B:[3], C:[2]` with only 4 of 5 tasks covered.  (Python float
arithmetic yields the same `int` values 2, 1, 1 at this input.) -/
theorem distribute_tasks_example_counts :
    distribute_tasks c5Scores c5Tasks =
      [("A", [exTask 1 5, exTask 2 4]), ("B", [exTask 3 3]), ("C", [exTask 4 2])] ∧
    (((distribute_tasks c5Scores c5Tasks).lookup "C").getD []).length = 1 ∧
    ((distribute_tasks c5Scores c5Tasks).map (fun p => p.2.length)).sum = 4 := by
  norm_num [distribute_tasks, sortDesc, insertDesc, propLoop, zeroSplit, pyInt,
    c5Scores, c5Tasks, exTask, List.lookup]
  decide

/-- C3: the claim says that with pending tasks but zero healthy peers
the pool is surfaced as an unassignable error and not silently dropped,
but `reassign_tasks` has already deleted the failed node's entry when it
hits the `if not device_scores` guard: it returns the same plain empty
dict `{}` that a no-op call returns, and `t1` is gone from
`task_assignments` (only the `reassigned_tasks` observability set still
mentions it). -/
theorem reassign_tasks_drops_pool_without_peers :
    reassign_tasks ["A"] [] c3State = ([], ⟨[], {"t1"}⟩) := by
  decide

/-- C10: calling `reassign_tasks` with an empty failed-device list
returns the empty dict and leaves the scheduler state untouched — the
guard at line 185 returns before any mutation. -/
theorem reassign_tasks_empty_failed_noop :
    ∀ (hs : List (DeviceId × ℚ)) (st : SchedState),
      reassign_tasks [] hs st = ([], st) := by
  intro hs st
  rfl

/-- C4 counterexample: the return value of `collect_results` does not
carry the set of still-missing task ids.  Two runs — one with a silent
peer `B` owning `t2` (missing set `["t2"]`), one without it (missing set
`[]`) — return the identical value, so no still-missing-id information
is part of the return value. -/
theorem collect_results_lacks_missing_ids :
    collect_results c4a1 10 "L" [] 0 c4envs ⟨[], ∅⟩ =
      collect_results c4a2 10 "L" [] 0 c4envs ⟨[], ∅⟩ ∧
    missingIds c4a1 (collect_results c4a1 10 "L" [] 0 c4envs ⟨[], ∅⟩) ≠
      missingIds c4a2 (collect_results c4a2 10 "L" [] 0 c4envs ⟨[], ∅⟩) := by
  norm_num [collect_results, collectLoop, collectIter, c4a1, c4a2, c4envs, exTask,
    missingIds, dictUpdate, dictSet, removeAll]
  decide

/-- A key of `dictSet k v l` is `k` or a key of `l`. -/
theorem mem_keys_dictSet {κ β : Type} [BEq κ] [LawfulBEq κ] (k : κ) (v : β)
    (l : List (κ × β)) (d : κ) (h : d ∈ (dictSet k v l).map Prod.fst) :
    d = k ∨ d ∈ l.map Prod.fst := by
  unfold dictSet at h
  split at h
  · rw [List.map_map] at h
    rcases List.mem_map.1 h with ⟨p, hp, hd⟩
    by_cases hk : p.1 == k
    · simp only [Function.comp, hk, if_pos] at hd
      exact Or.inl hd.symm
    · simp only [Function.comp, hk, Bool.false_eq_true, if_false] at hd
      exact Or.inr (hd ▸ List.mem_map_of_mem Prod.fst hp)
  · rw [List.map_append] at h
    rcases List.mem_append.1 h with h | h
    · exact Or.inr h
    · simp only [List.map_cons, List.map_nil, List.mem_singleton] at h
      exact Or.inl h
/-- Every key of the score table is the local node or an Active peer
with a truthy profile. -/
theorem mem_keys_get_device_scores (n : NodeState) (d : DeviceId)
    (h : d ∈ (get_device_scores n).map Prod.fst) :
    d = n.id ∨
      ∃ info : PeerInfo, (d, info) ∈ n.peers ∧ info.status = "Active" ∧
        info.profile.isSome := by
  unfold get_device_scores at h
  suffices H : ∀ (ps : List (DeviceId × PeerInfo)) (acc : List (DeviceId × ℚ)),
      d ∈ (ps.foldl
        (fun sc pr =>
          if pr.2.status = "Active" ∧ pr.2.profile.isSome then
            dictSet pr.1 (calculate_device_score pr.2.profile) sc
          else sc) acc).map Prod.fst →
      d ∈ acc.map Prod.fst ∨
        ∃ info : PeerInfo, (d, info) ∈ ps ∧ info.status = "Active" ∧
          info.profile.isSome by
    rcases H n.peers _ h with hbase | hpeer
    · left
      split at hbase
      · simpa using hbase
      · simp at hbase
    · exact Or.inr hpeer
  intro ps
  induction ps with
  | nil =>
      intro acc hacc
      exact Or.inl hacc
  | cons pr ps ih =>
      intro acc hacc
      rw [List.foldl_cons] at hacc
      rcases ih _ hacc with hstep | ⟨info, hmem, hinfo⟩
      · split at hstep
        · rcases mem_keys_dictSet _ _ _ _ hstep with rfl | hin
          · right
            exact ⟨pr.2, List.mem_cons_self _ _, by assumption⟩
          · exact Or.inl hin
        · exact Or.inl hstep
      · exact Or.inr ⟨info, List.mem_cons_of_mem _ hmem, hinfo⟩

/-- The even-split branch only produces the given devices as keys. -/
theorem mem_keys_zeroSplit (q r : ℕ) (ts : List Task) :
    ∀ (devs : List (DeviceId × ℚ)) (i : ℕ) (d : DeviceId),
      d ∈ (zeroSplit q r ts devs i).map Prod.fst → d ∈ devs.map Prod.fst := by
  intro devs
  induction devs with
  | nil => intro i d h; simp [zeroSplit] at h
  | cons dev devs ih =>
      intro i d h
      rw [zeroSplit, List.map_cons, List.mem_cons] at h
      rcases h with h | h
      · exact h ▸ List.mem_cons_self _ _
      · exact List.mem_cons_of_mem _ (ih (i + 1) d h)

/-- The proportional branch only produces the given devices as keys. -/
theorem mem_keys_propLoop (n : ℕ) (total : ℚ) :
    ∀ (devs : List (DeviceId × ℚ)) (ts : List Task) (rem : ℕ) (d : DeviceId),
      d ∈ (propLoop n total devs ts rem).map Prod.fst → d ∈ devs.map Prod.fst := by
  intro devs
  induction devs with
  | nil => intro ts rem d h; simp [propLoop] at h
  | cons dev devs ih =>
      intro ts rem d h
      rcases dev with ⟨dd, ss⟩
      rw [propLoop] at h
      rcases List.mem_map.1 h with ⟨e, he, hd⟩
      rcases List.mem_cons.1 he with rfl | he'
      · exact hd ▸ List.mem_cons_self _ _
      · split at he' <;> split at he' <;>
          first
            | cases he'
            | exact List.mem_cons_of_mem _
                (ih _ _ d (hd ▸ List.mem_map_of_mem Prod.fst he'))

/-- `insertDesc` is a permutation of consing. -/
theorem insertDesc_perm {α : Type} (key : α → ℚ) (x : α) :
    ∀ l : List α, (insertDesc key x l).Perm (x :: l) := by
  intro l
  induction l with
  | nil => rfl
  | cons y ys ih =>
      rw [insertDesc]
      split
      · exact ((ih.cons y).trans (List.Perm.swap x y ys))
      · rfl

/-- The stable descending sort is a permutation of its input. -/
theorem sortDesc_perm {α : Type} (key : α → ℚ) :
    ∀ l : List α, (sortDesc key l).Perm l := by
  intro l
  induction l with
  | nil => rfl
  | cons x xs ih => exact (insertDesc_perm key x (sortDesc key xs)).trans (ih.cons x)

/-- Every key of a produced assignment is a key of the score table. -/
theorem mem_keys_distribute_tasks (scores : List (DeviceId × ℚ)) (tasks : List Task)
    (d : DeviceId) (h : d ∈ (distribute_tasks scores tasks).map Prod.fst) :
    d ∈ scores.map Prod.fst := by
  simp only [distribute_tasks] at h
  have hsorted : d ∈ (sortDesc (fun p => p.2) scores).map Prod.fst →
      d ∈ scores.map Prod.fst :=
    fun hx => ((sortDesc_perm (fun p => p.2) scores).map Prod.fst).mem_iff.1 hx
  split at h
  · simp at h
  · split at h
    · exact hsorted (mem_keys_zeroSplit _ _ _ _ _ _ h)
    · exact hsorted (mem_keys_propLoop _ _ _ _ _ _ h)

/-- In a list with nodup keys, a key determines its value. -/
theorem nodup_keys_eq {κ β : Type} (l : List (κ × β)) (h : (l.map Prod.fst).Nodup)
    (k : κ) (a b : β) (ha : (k, a) ∈ l) (hb : (k, b) ∈ l) : a = b := by
  induction l with
  | nil => cases ha
  | cons p l ih =>
      rw [List.map_cons, List.nodup_cons] at h
      rcases List.mem_cons.1 ha with rfl | ha'
      · rcases List.mem_cons.1 hb with hb' | hb'
        · exact (congrArg Prod.snd hb').symm
        · exact absurd (List.mem_map_of_mem Prod.fst hb') h.1
      · rcases List.mem_cons.1 hb with rfl | hb'
        · exact absurd (List.mem_map_of_mem Prod.fst ha') h.1
        · exact ih h.2 ha' hb'

/-- C9: an Active peer whose profile is absent (falsy) is omitted from
the score table built by `get_device_scores` — the `and
peer_info['profile']` guard filters it out — and therefore never
appears as a key of any assignment `distribute_tasks` produces and
never receives a task, in either branch, rather than participating
with score 0. -/
theorem absent_profile_peer_never_assigned :
    ∀ (n : NodeState) (p : DeviceId) (info : PeerInfo) (tasks : List Task),
      (p, info) ∈ n.peers → info.profile = none → p ≠ n.id →
      (n.peers.map Prod.fst).Nodup →
      p ∉ (get_device_scores n).map Prod.fst ∧
      ∀ e ∈ distribute_tasks (get_device_scores n) tasks, e.1 ≠ p := by
  intro n p info tasks hmem hprof hlocal hnodup
  have hkeys : p ∉ (get_device_scores n).map Prod.fst := by
    intro hin
    rcases mem_keys_get_device_scores n p hin with rfl | ⟨info2, hmem2, _, hsome⟩
    · exact hlocal rfl
    · rw [nodup_keys_eq n.peers hnodup p info2 info hmem2 hmem, hprof] at hsome
      simp at hsome
  refine ⟨hkeys, fun e he hep => hkeys ?_⟩
  exact mem_keys_distribute_tasks _ tasks p
    (hep ▸ List.mem_map_of_mem Prod.fst he)

/-- Witness for C9: a node whose single peer `P` is Active but
profileless; `P` is not scored and receives nothing. -/
theorem absent_profile_peer_never_assigned_witness :
    "P" ∉ (get_device_scores ⟨"L", "Active", some ⟨10, 10, none⟩,
        [("P", ⟨"Active", none⟩)]⟩).map Prod.fst ∧
    ∀ e ∈ distribute_tasks
        (get_device_scores ⟨"L", "Active", some ⟨10, 10, none⟩,
          [("P", ⟨"Active", none⟩)]⟩) [exTask 1 1], e.1 ≠ "P" :=
  absent_profile_peer_never_assigned
    ⟨"L", "Active", some ⟨10, 10, none⟩, [("P", ⟨"Active", none⟩)]⟩
    "P" ⟨"Active", none⟩ [exTask 1 1]
    (by decide) rfl (by decide) (by decide)

/-- The indexed slicing of the even-split branch equals the
suffix-local chunking. -/
theorem zeroSplit_eq_evenChunks (q r : ℕ) (ts : List Task) :
    ∀ (devs : List (DeviceId × ℚ)) (i : ℕ),
      zeroSplit q r ts devs i = evenChunks q (r - i) devs (ts.drop (i * q + min i r)) := by
  intro devs
  induction devs with
  | nil => intro i; rfl
  | cons d devs ih =>
      intro i
      rw [zeroSplit, ih (i + 1)]
      conv_rhs => rw [evenChunks]
      rw [List.drop_drop]
      by_cases hi : i < r
      · have h0 : 0 < r - i := by omega
        rw [if_pos hi, if_pos h0]
        have e1 : r - (i + 1) = r - i - 1 := by omega
        have e2 : (i + 1) * q + min (i + 1) r = i * q + min i r + (q + 1) := by
          rw [Nat.succ_mul]
          omega
        rw [e1, e2]
      · have h0 : ¬ 0 < r - i := by omega
        rw [if_neg hi, if_neg h0]
        have e1 : r - (i + 1) = r - i - 1 := by omega
        have e2 : (i + 1) * q + min (i + 1) r = i * q + min i r + (q + 0) := by
          rw [Nat.succ_mul]
          omega
        rw [e1, e2]

/-- `evenChunks` yields one entry per device. -/
theorem evenChunks_length (q : ℕ) :
    ∀ (devs : List (DeviceId × ℚ)) (r : ℕ) (ts : List Task),
      (evenChunks q r devs ts).length = devs.length := by
  intro devs
  induction devs with
  | nil => intro r ts; rfl
  | cons d devs ih => intro r ts; rw [evenChunks]; simp [ih]

/-- When the task count is exactly `k*q + r` with `r ≤ k`, the chunks
concatenate back to the whole task list: nothing is lost or repeated. -/
theorem evenChunks_flatten (q : ℕ) :
    ∀ (devs : List (DeviceId × ℚ)) (r : ℕ) (ts : List Task),
      ts.length = devs.length * q + r → r ≤ devs.length →
      ((evenChunks q r devs ts).map (fun p => p.2)).flatten = ts := by
  intro devs
  induction devs with
  | nil =>
      intro r ts h hr
      have hr0 : r = 0 := Nat.le_zero.1 hr
      subst hr0
      simp only [List.length_nil, Nat.zero_mul, Nat.zero_add] at h
      rw [List.length_eq_zero] at h
      subst h
      rfl
  | cons d devs ih =>
      intro r ts h hr
      rw [evenChunks, List.map_cons, List.flatten_cons]
      rw [List.length_cons, Nat.succ_mul] at h
      rw [List.length_cons] at hr
      rcases Nat.eq_zero_or_pos r with rfl | hrpos
      · rw [if_neg (lt_irrefl 0)]
        rw [ih (0 - 1) (ts.drop (q + 0))
          (by rw [List.length_drop]; omega) (by omega)]
        exact List.take_append_drop _ ts
      · rw [if_pos hrpos]
        rw [ih (r - 1) (ts.drop (q + 1))
          (by rw [List.length_drop]; omega) (by omega)]
        exact List.take_append_drop _ ts

/-- Entry `m` of `evenChunks` holds `q` tasks plus one extra iff
`m < r`. -/
theorem evenChunks_get_length (q : ℕ) :
    ∀ (devs : List (DeviceId × ℚ)) (r : ℕ) (ts : List Task) (m : ℕ)
      (hm : m < (evenChunks q r devs ts).length),
      ts.length = devs.length * q + r → r ≤ devs.length →
      ((evenChunks q r devs ts).get ⟨m, hm⟩).2.length = q + if m < r then 1 else 0 := by
  intro devs
  induction devs with
  | nil =>
      intro r ts m hm
      simp [evenChunks] at hm
  | cons d devs ih =>
      intro r ts m hm h hr
      rw [List.length_cons, Nat.succ_mul] at h
      rw [List.length_cons] at hr
      cases r with
      | zero =>
          have hc : (q + if 0 < 0 then 1 else 0) = q := by
            rw [if_neg (lt_irrefl 0)]
            omega
          cases m with
          | zero =>
              show (ts.take (q + if 0 < 0 then 1 else 0)).length =
                q + if 0 < 0 then 1 else 0
              rw [hc, List.length_take]
              omega
          | succ m =>
              have hm' : m < (evenChunks q (0 - 1) devs
                  (ts.drop (q + if 0 < 0 then 1 else 0))).length := by
                have hm0 : m + 1 < (evenChunks q 0 (d :: devs) ts).length := hm
                rw [evenChunks, List.length_cons] at hm0
                exact Nat.lt_of_succ_lt_succ hm0
              have hrec : ((evenChunks q 0 (d :: devs) ts).get ⟨m + 1, hm⟩) =
                  ((evenChunks q (0 - 1) devs
                    (ts.drop (q + if 0 < 0 then 1 else 0))).get ⟨m, hm'⟩) := rfl
              have h1 : (ts.drop (q + if 0 < 0 then 1 else 0)).length =
                  devs.length * q + (0 - 1) := by
                rw [hc, List.length_drop]
                omega
              have h2 : 0 - 1 ≤ devs.length := by omega
              rw [hrec, ih (0 - 1) _ m hm' h1 h2]
              rw [if_neg (show ¬ m < 0 - 1 by omega),
                if_neg (show ¬ m + 1 < 0 by omega)]
      | succ r =>
          have hc : (q + if 0 < r + 1 then 1 else 0) = q + 1 := by
            rw [if_pos (Nat.succ_pos r)]
          cases m with
          | zero =>
              show (ts.take (q + if 0 < r + 1 then 1 else 0)).length =
                q + if 0 < r + 1 then 1 else 0
              rw [hc, List.length_take]
              omega
          | succ m =>
              have hm' : m < (evenChunks q (r + 1 - 1) devs
                  (ts.drop (q + if 0 < r + 1 then 1 else 0))).length := by
                have hm0 : m + 1 < (evenChunks q (r + 1) (d :: devs) ts).length := hm
                rw [evenChunks, List.length_cons] at hm0
                exact Nat.lt_of_succ_lt_succ hm0
              have hrec : ((evenChunks q (r + 1) (d :: devs) ts).get ⟨m + 1, hm⟩) =
                  ((evenChunks q (r + 1 - 1) devs
                    (ts.drop (q + if 0 < r + 1 then 1 else 0))).get ⟨m, hm'⟩) := rfl
              have h1 : (ts.drop (q + if 0 < r + 1 then 1 else 0)).length =
                  devs.length * q + (r + 1 - 1) := by
                rw [hc, List.length_drop]
                omega
              have h2 : r + 1 - 1 ≤ devs.length := by omega
              rw [hrec, ih (r + 1 - 1) _ m hm' h1 h2]
              have hiff : (if m < r + 1 - 1 then 1 else 0) =
                  (if m + 1 < r + 1 then 1 else 0) := by
                rcases Nat.lt_or_ge m r with hc2 | hc2
                · rw [if_pos (by omega), if_pos (by omega)]
                · rw [if_neg (by omega), if_neg (by omega)]
              rw [hiff]

/-- C7: when the total score is 0 and there is at least one scored
peer, `distribute_tasks` takes the even-split branch: there is one
entry per peer in sorted order, entry `m` holds `floor(n/k)` tasks plus
one extra exactly when `m < n mod k` (so the first `n mod k` peers in
sorted order get the extra task and any two entry lengths differ by at
most 1), and the concatenation of the entries is exactly the
weight-sorted task list — every task is covered exactly once. -/
theorem distribute_tasks_zero_score_even_split :
    ∀ (scores : List (DeviceId × ℚ)) (tasks : List Task),
      scores ≠ [] → (scores.map (fun p => p.2)).sum = 0 →
      (scores.map Prod.fst).Nodup →
      (distribute_tasks scores tasks).length = scores.length ∧
      (∀ m (hm : m < (distribute_tasks scores tasks).length),
        ((distribute_tasks scores tasks).get ⟨m, hm⟩).2.length =
          tasks.length / scores.length +
            if m < tasks.length % scores.length then 1 else 0) ∧
      ((distribute_tasks scores tasks).map (fun p => p.2)).flatten =
        sortDesc (fun t => t.weight) tasks ∧
      (((distribute_tasks scores tasks).map (fun p => p.2)).flatten).Perm tasks ∧
      (∀ e1 ∈ distribute_tasks scores tasks, ∀ e2 ∈ distribute_tasks scores tasks,
        e1.2.length ≤ e2.2.length + 1) := by
  intro scores tasks hne hsum hnd
  have hperm := sortDesc_perm (fun p => (p : DeviceId × ℚ).2) scores
  have hlen : (sortDesc (fun p => (p : DeviceId × ℚ).2) scores).length = scores.length :=
    hperm.length_eq
  have hsne : sortDesc (fun p => (p : DeviceId × ℚ).2) scores ≠ [] := by
    intro h0
    apply hne
    rw [← List.length_eq_zero, ← hlen, h0]
    rfl
  have hsum' : ((sortDesc (fun p => (p : DeviceId × ℚ).2) scores).map
      (fun p => p.2)).sum = 0 := by
    rw [List.Perm.sum_eq (hperm.map (fun p => p.2)), hsum]
  have hTlen : (sortDesc (fun t => Task.weight t) tasks).length = tasks.length :=
    (sortDesc_perm _ tasks).length_eq
  have hkpos : 0 < scores.length := List.length_pos.2 hne
  have hres : distribute_tasks scores tasks =
      evenChunks (tasks.length / scores.length) (tasks.length % scores.length)
        (sortDesc (fun p => (p : DeviceId × ℚ).2) scores)
        (sortDesc (fun t => Task.weight t) tasks) := by
    simp only [distribute_tasks]
    rw [if_neg hsne, if_pos hsum', zeroSplit_eq_evenChunks]
    simp only [Nat.sub_zero, Nat.zero_mul, Nat.zero_min, Nat.add_zero, Nat.zero_add,
      List.drop_zero]
    rw [hTlen, hlen]
  have hinv1 : (sortDesc (fun t => Task.weight t) tasks).length =
      (sortDesc (fun p => (p : DeviceId × ℚ).2) scores).length *
        (tasks.length / scores.length) + tasks.length % scores.length := by
    rw [hTlen, hlen]
    exact (Nat.div_add_mod tasks.length scores.length).symm
  have hinv2 : tasks.length % scores.length ≤
      (sortDesc (fun p => (p : DeviceId × ℚ).2) scores).length := by
    rw [hlen]
    exact le_of_lt (Nat.mod_lt _ hkpos)
  have hget : ∀ (l1 l2 : List (DeviceId × List Task)) (he : l1 = l2) (m : ℕ)
      (h1 : m < l1.length) (h2 : m < l2.length), l1.get ⟨m, h1⟩ = l2.get ⟨m, h2⟩ := by
    intro l1 l2 he
    subst he
    intro m h1 h2
    rfl
  have H2 : ∀ m (hm : m < (distribute_tasks scores tasks).length),
      ((distribute_tasks scores tasks).get ⟨m, hm⟩).2.length =
        tasks.length / scores.length +
          if m < tasks.length % scores.length then 1 else 0 := by
    intro m hm
    have hm2 : m < (evenChunks (tasks.length / scores.length)
        (tasks.length % scores.length)
        (sortDesc (fun p => (p : DeviceId × ℚ).2) scores)
        (sortDesc (fun t => Task.weight t) tasks)).length := by
      rw [← hres]
      exact hm
    rw [hget _ _ hres m hm hm2]
    exact evenChunks_get_length (tasks.length / scores.length) _
      (tasks.length % scores.length) _ m hm2 hinv1 hinv2
  have H3 : ((distribute_tasks scores tasks).map (fun p => p.2)).flatten =
      sortDesc (fun t => Task.weight t) tasks := by
    rw [hres]
    exact evenChunks_flatten _ _ _ _ hinv1 hinv2
  refine ⟨?_, H2, H3, ?_, ?_⟩
  · rw [hres, evenChunks_length]
    exact hlen
  · rw [H3]
    exact sortDesc_perm _ tasks
  · intro e1 he1 e2 he2
    obtain ⟨n1, rfl⟩ := List.mem_iff_get.1 he1
    obtain ⟨n2, rfl⟩ := List.mem_iff_get.1 he2
    have l1 := H2 n1.1 n1.2
    have l2 := H2 n2.1 n2.2
    simp only [Fin.eta] at l1 l2
    rw [l1, l2]
    split_ifs <;> omega

/-- Witness for C7: two zero-scored peers and three tasks — one entry
per peer, and the entries concatenate to the sorted task list. -/
theorem distribute_tasks_zero_score_even_split_witness :
    (distribute_tasks c7Scores c7Tasks).length = c7Scores.length ∧
    ((distribute_tasks c7Scores c7Tasks).map (fun p => p.2)).flatten =
      sortDesc (fun t => t.weight) c7Tasks := by
  have h := distribute_tasks_zero_score_even_split c7Scores c7Tasks
    (by decide) (by norm_num [c7Scores]) (by decide)
  exact ⟨h.1, h.2.2.1⟩

/-- The keys of `dictErase d l` are the keys of `l` other than `d`. -/
theorem keys_dictErase (d : DeviceId) {β : Type} (l : List (DeviceId × β)) :
    (dictErase d l).map Prod.fst = (l.map Prod.fst).filter (fun x => ! (x == d)) := by
  induction l with
  | nil => rfl
  | cons p l ih =>
      rw [dictErase, List.filter_cons, List.map_cons, List.filter_cons]
      by_cases hp : p.1 = d
      · simp only [hp, beq_self_eq_true, Bool.not_true]
        exact ih
      · have : (p.1 == d) = false := beq_eq_false_iff_ne.2 hp
        simp only [this, Bool.not_false, List.map_cons]
        rw [← ih]
        rfl

/-- Erasing a key preserves key nodup-ness. -/
theorem nodup_keys_dictErase (d : DeviceId) {β : Type} (l : List (DeviceId × β))
    (h : (l.map Prod.fst).Nodup) : ((dictErase d l).map Prod.fst).Nodup := by
  rw [keys_dictErase]
  exact h.filter _

/-- Membership in the keys of an erased dict. -/
theorem mem_keys_dictErase (d k : DeviceId) {β : Type} (l : List (DeviceId × β)) :
    k ∈ (dictErase d l).map Prod.fst ↔ k ∈ l.map Prod.fst ∧ k ≠ d := by
  rw [keys_dictErase, List.mem_filter]
  simp

/-- A key that is found by `lookup` is a key of the dict. -/
theorem lookup_isSome_mem_keys (k : DeviceId) {β : Type} :
    ∀ (l : List (DeviceId × β)), (l.lookup k).isSome → k ∈ l.map Prod.fst := by
  intro l
  induction l with
  | nil => intro h; cases h
  | cons p l ih =>
      intro h
      rw [List.lookup_cons] at h
      by_cases hp : k == p.1
      · rw [List.map_cons]
        exact List.mem_cons.2 (Or.inl (eq_of_beq hp))
      · rw [Bool.of_not_eq_true hp] at h
        · exact List.mem_cons.2 (Or.inr (ih h))

/-- A key that `lookup` misses is not a key of the dict. -/
theorem lookup_none_not_mem_keys (k : DeviceId) {β : Type} :
    ∀ (l : List (DeviceId × β)), l.lookup k = none → k ∉ l.map Prod.fst := by
  intro l
  induction l with
  | nil => intro _ h; cases h
  | cons p l ih =>
      intro h hk
      rw [List.lookup_cons] at h
      rcases List.mem_cons.1 hk with rfl | hk'
      · rw [beq_self_eq_true] at h
        cases h
      · by_cases hp : k == p.1
        · rw [hp] at h
          cases h
        · rw [Bool.of_not_eq_true hp] at h
          exact ih h hk'

/-- If no entry carries the key, erasing it does nothing. -/
theorem dictErase_of_not_mem (d : DeviceId) {β : Type} (l : List (DeviceId × β))
    (h : d ∉ l.map Prod.fst) : dictErase d l = l := by
  rw [dictErase, List.filter_eq_self]
  intro p hp
  have : p.1 ≠ d := fun he =>
    h (he ▸ List.mem_map_of_mem Prod.fst hp)
  simp [this]

/-- Erasing a key whose head entry carries it drops the head. -/
theorem dictErase_cons_eq {β : Type} (d : DeviceId) (p : DeviceId × β)
    (a : List (DeviceId × β)) (h : p.1 = d) :
    dictErase d (p :: a) = dictErase d a := by
  simp [dictErase, List.filter_cons, h]

/-- Erasing a key keeps a head entry with a different key. -/
theorem dictErase_cons_ne {β : Type} (d : DeviceId) (p : DeviceId × β)
    (a : List (DeviceId × β)) (h : p.1 ≠ d) :
    dictErase d (p :: a) = p :: dictErase d a := by
  simp [dictErase, List.filter_cons, h]

/-- With nodup keys, the tasks of a looked-up entry plus the tasks of
the erased dict permute to the whole dict's tasks. -/
theorem flatten_lookup_dictErase (d : DeviceId) :
    ∀ (a : List (DeviceId × List Task)) (ts : List Task),
      (a.map Prod.fst).Nodup → a.lookup d = some ts →
      ((a.map (fun p => p.2)).flatten).Perm
        (ts ++ (((dictErase d a).map (fun p => p.2)).flatten)) := by
  intro a
  induction a with
  | nil => intro ts _ h; cases h
  | cons p a ih =>
      intro ts hnd hl
      rw [List.map_cons, List.nodup_cons] at hnd
      rw [List.lookup_cons] at hl
      by_cases hp : d == p.1
      · rw [hp] at hl
        injection hl with hts
        have hpd : p.1 = d := (eq_of_beq hp).symm
        have hnot : d ∉ a.map Prod.fst := hpd ▸ hnd.1
        rw [dictErase_cons_eq d p a hpd, dictErase_of_not_mem d a hnot,
          List.map_cons, List.flatten_cons, hts]
      · rw [Bool.of_not_eq_true hp] at hl
        have hpd : p.1 ≠ d := fun he => hp (by simp [he])
        rw [dictErase_cons_ne d p a hpd, List.map_cons, List.flatten_cons,
          List.map_cons, List.flatten_cons]
        have step := ih ts hnd.2 hl
        refine (step.append_left p.2).trans ?_
        rw [← List.append_assoc, ← List.append_assoc]
        exact List.perm_append_comm.append_right _

/-- `lookup` over an append resolves in the left part when it hits. -/
theorem lookup_append_some (d : DeviceId) {β : Type} (v : β) :
    ∀ (l l2 : List (DeviceId × β)), l.lookup d = some v →
      (l ++ l2).lookup d = some v := by
  intro l l2
  induction l with
  | nil => intro h; cases h
  | cons p l ih =>
      intro h
      rw [List.lookup_cons] at h
      rw [List.cons_append, List.lookup_cons]
      by_cases hp : d == p.1
      · rw [hp] at h ⊢
        exact h
      · rw [Bool.of_not_eq_true hp] at h ⊢
        exact ih h

/-- `lookup` over an append falls through to the right part when the
left part misses. -/
theorem lookup_append_none (d : DeviceId) {β : Type} :
    ∀ (l l2 : List (DeviceId × β)), l.lookup d = none →
      (l ++ l2).lookup d = l2.lookup d := by
  intro l l2
  induction l with
  | nil => intro _; rfl
  | cons p l ih =>
      intro h
      rw [List.lookup_cons] at h
      rw [List.cons_append, List.lookup_cons]
      by_cases hp : d == p.1
      · rw [hp] at h
        cases h
      · rw [Bool.of_not_eq_true hp] at h ⊢
        exact ih h

/-- A dict none of whose entries carries the key misses on `lookup`. -/
theorem lookup_none_of_any_false (d : DeviceId) {β : Type} :
    ∀ (l : List (DeviceId × β)), l.any (fun p => p.1 == d) = false →
      l.lookup d = none := by
  intro l
  induction l with
  | nil => intro _; rfl
  | cons p l ih =>
      intro h
      rw [List.any_cons, Bool.or_eq_false_iff] at h
      rw [List.lookup_cons]
      have : (d == p.1) = false := by
        rw [beq_eq_false_iff_ne] at h ⊢
        exact fun he => h.1 he.symm
      rw [this]
      exact ih h.2

/-- The entry-extending map of `dictExtend` leaves a dict without the
key untouched. -/
theorem map_extend_of_not_mem (d : DeviceId) (ts : List Task) :
    ∀ (a : List (DeviceId × List Task)), d ∉ a.map Prod.fst →
      a.map (fun p => if (p.1 == d) = true then (p.1, p.2 ++ ts) else p) = a := by
  intro a
  induction a with
  | nil => intro _; rfl
  | cons p a ih =>
      intro h
      rw [List.map_cons] at h ⊢
      have hne : (p.1 == d) = false := by
        rw [beq_eq_false_iff_ne]
        exact fun he => (List.mem_cons.2 (Or.inl he.symm) : d ∈ p.1 :: a.map Prod.fst) |> h
      rw [hne]
      simp only [Bool.false_eq_true, if_false]
      rw [ih (fun hm => h (List.mem_cons.2 (Or.inr hm)))]

/-- The entry-extending map preserves keys. -/
theorem keys_map_extend (d : DeviceId) (ts : List Task)
    (a : List (DeviceId × List Task)) :
    (a.map (fun p => if (p.1 == d) = true then (p.1, p.2 ++ ts) else p)).map Prod.fst =
      a.map Prod.fst := by
  rw [List.map_map]
  apply List.map_congr_left
  intro p _
  show (if (p.1 == d) = true then (p.1, p.2 ++ ts) else p).1 = p.1
  split <;> rfl

/-- A key of `dictExtend d ts a` is `d` or a key of `a`. -/
theorem mem_keys_dictExtend (d : DeviceId) (ts : List Task)
    (a : List (DeviceId × List Task)) (k : DeviceId)
    (h : k ∈ (dictExtend d ts a).map Prod.fst) : k = d ∨ k ∈ a.map Prod.fst := by
  unfold dictExtend at h
  split at h
  · rw [keys_map_extend] at h
    exact Or.inr h
  · rw [List.map_append] at h
    rcases List.mem_append.1 h with h | h
    · exact Or.inr h
    · simp at h
      exact Or.inl h

/-- `dictExtend` preserves key nodup-ness. -/
theorem nodup_keys_dictExtend (d : DeviceId) (ts : List Task)
    (a : List (DeviceId × List Task)) (h : (a.map Prod.fst).Nodup) :
    ((dictExtend d ts a).map Prod.fst).Nodup := by
  unfold dictExtend
  split
  · rw [keys_map_extend]
    exact h
  · rename_i hany
    rw [List.map_append]
    simp only [List.map_cons, List.map_nil]
    rw [List.nodup_append]
    refine ⟨h, List.nodup_singleton d, ?_⟩
    intro k hk hkd
    rw [List.mem_singleton] at hkd
    subst hkd
    rw [Bool.not_eq_true, List.any_eq_false] at hany
    rcases List.mem_map.1 hk with ⟨p, hp, hpk⟩
    exact hany p hp (by rw [beq_iff_eq]; exact hpk)

/-- The entry-extending map of a present key appends exactly `ts` to
the pool of all tasks, up to permutation. -/
theorem flatten_map_extend (d : DeviceId) (ts : List Task) :
    ∀ (a : List (DeviceId × List Task)), (a.map Prod.fst).Nodup →
      a.any (fun p => p.1 == d) = true →
      (((a.map (fun p => if (p.1 == d) = true then (p.1, p.2 ++ ts) else p)).map
          (fun p => p.2)).flatten).Perm
        ((a.map (fun p => p.2)).flatten ++ ts) := by
  intro a
  induction a with
  | nil => intro _ hany; cases hany
  | cons p a ih =>
      intro hnd hany
      rw [List.map_cons, List.nodup_cons] at hnd
      rw [List.map_cons]
      by_cases hpd : (p.1 == d) = true
      · rw [if_pos hpd]
        rw [map_extend_of_not_mem d ts a ((eq_of_beq hpd) ▸ hnd.1)]
        rw [List.map_cons, List.flatten_cons, List.map_cons, List.flatten_cons]
        show ((p.2 ++ ts) ++ (List.map (fun p => p.2) a).flatten).Perm
          ((p.2 ++ (List.map (fun p => p.2) a).flatten) ++ ts)
        rw [List.append_assoc, List.append_assoc]
        exact List.Perm.append_left p.2 List.perm_append_comm
      · rw [if_neg hpd]
        have hany' : a.any (fun p => p.1 == d) = true := by
          rw [List.any_cons] at hany
          rcases Bool.or_eq_true_iff.1 hany with h | h
          · exact absurd h hpd
          · exact h
        rw [List.map_cons, List.flatten_cons, List.map_cons, List.flatten_cons]
        refine ((ih hnd.2 hany').append_left p.2).trans ?_
        rw [List.append_assoc]

/-- With nodup keys, `dictExtend` appends exactly `ts` to the pool of
all tasks, up to permutation. -/
theorem flatten_dictExtend (d : DeviceId) (ts : List Task)
    (a : List (DeviceId × List Task)) (hnd : (a.map Prod.fst).Nodup) :
    (((dictExtend d ts a).map (fun p => p.2)).flatten).Perm
      ((a.map (fun p => p.2)).flatten ++ ts) := by
  unfold dictExtend
  split
  · exact flatten_map_extend d ts a hnd (by assumption)
  · rw [List.map_append, List.flatten_append]
    simp

/-- `dictAppend` is `dictExtend` with a one-task batch. -/
theorem dictAppend_eq_extend (d : DeviceId) (t : Task)
    (l : List (DeviceId × List Task)) : dictAppend d t l = dictExtend d [t] l := rfl

/-- Extending a present key's entry puts the new tasks into the entry
`lookup` finds. -/
theorem mem_lookup_map_extend (d : DeviceId) (ts : List Task) (x : Task)
    (hx : x ∈ ts) :
    ∀ (a : List (DeviceId × List Task)), a.any (fun p => p.1 == d) = true →
      x ∈ (((a.map (fun p => if (p.1 == d) = true then (p.1, p.2 ++ ts) else p)).lookup
        d).getD []) := by
  intro a
  induction a with
  | nil => intro hany; cases hany
  | cons p a ih =>
      intro hany
      rw [List.map_cons]
      by_cases hpd : (p.1 == d) = true
      · rw [if_pos hpd]
        rw [List.lookup_cons]
        have : (d == p.1) = true := by
          rw [beq_iff_eq] at hpd ⊢
          exact hpd.symm
        rw [this]
        exact List.mem_append_right _ hx
      · rw [if_neg hpd]
        rw [List.lookup_cons]
        have : (d == p.1) = false := by
          rw [beq_eq_false_iff_ne]
          intro he
          exact hpd (by rw [beq_iff_eq]; exact he.symm)
        rw [this]
        have hany' : a.any (fun p => p.1 == d) = true := by
          rw [List.any_cons] at hany
          rcases Bool.or_eq_true_iff.1 hany with h | h
          · exact absurd h hpd
          · exact h
        exact ih hany'

/-- Anything already in the entry `lookup d'` finds survives the
entry-extending map for `d`. -/
theorem mem_lookup_map_extend_mono (d d' : DeviceId) (ts : List Task) (x : Task) :
    ∀ (a : List (DeviceId × List Task)), x ∈ ((a.lookup d').getD []) →
      x ∈ (((a.map (fun p => if (p.1 == d) = true then (p.1, p.2 ++ ts) else p)).lookup
        d').getD []) := by
  intro a
  induction a with
  | nil => intro h; cases h
  | cons p a ih =>
      intro h
      rw [List.lookup_cons] at h
      rw [List.map_cons, List.lookup_cons]
      have hfst : (if (p.1 == d) = true then (p.1, p.2 ++ ts) else p).1 = p.1 := by
        split <;> rfl
      by_cases hk : (d' == p.1) = true
      · rw [hk] at h
        have hval : x ∈ p.2 := h
        have hkey : (d' == (if (p.1 == d) = true then (p.1, p.2 ++ ts) else p).1) = true := by
          rw [hfst]
          exact hk
        rw [hkey]
        have hsnd : x ∈ (if (p.1 == d) = true then (p.1, p.2 ++ ts) else p).2 := by
          split
          · exact List.mem_append_left _ hval
          · exact hval
        exact hsnd
      · rw [Bool.of_not_eq_true hk] at h
        have hkey : (d' == (if (p.1 == d) = true then (p.1, p.2 ++ ts) else p).1) = false := by
          rw [hfst]
          exact Bool.of_not_eq_true hk
        rw [hkey]
        exact ih h

/-- The batch handed to `dictExtend` lands in the entry `lookup d`
finds. -/
theorem mem_lookup_dictExtend_self (d : DeviceId) (ts : List Task) (x : Task)
    (hx : x ∈ ts) (a : List (DeviceId × List Task)) :
    x ∈ (((dictExtend d ts a).lookup d).getD []) := by
  unfold dictExtend
  split
  · exact mem_lookup_map_extend d ts x hx a (by assumption)
  · rename_i hany
    rw [Bool.not_eq_true] at hany
    rw [lookup_append_none d a _ (lookup_none_of_any_false d a hany)]
    rw [List.lookup_cons, beq_self_eq_true]
    exact hx

/-- Anything in an entry of `a` stays in that entry after `dictExtend`. -/
theorem mem_lookup_dictExtend_mono (d d' : DeviceId) (ts : List Task) (x : Task)
    (a : List (DeviceId × List Task)) (h : x ∈ ((a.lookup d').getD [])) :
    x ∈ (((dictExtend d ts a).lookup d').getD []) := by
  unfold dictExtend
  split
  · exact mem_lookup_map_extend_mono d d' ts x a h
  · cases hl : a.lookup d' with
    | some v =>
        rw [lookup_append_some d' v a _ hl]
        rw [hl] at h
        exact h
    | none =>
        rw [hl] at h
        cases h

/-- The device the round-robin loop picks is a key of the sorted score
table. -/
theorem nthDevice_mem (sorted : List (DeviceId × ℚ)) (i : ℕ) (hne : sorted ≠ []) :
    nthDevice sorted i ∈ sorted.map Prod.fst := by
  have hpos : 0 < sorted.length := List.length_pos.2 hne
  have hlt : i % sorted.length < sorted.length := Nat.mod_lt _ hpos
  unfold nthDevice
  rw [List.get?_eq_get hlt]
  exact List.mem_map_of_mem Prod.fst (List.get_mem sorted _ _)

/-- The round-robin loop only grows entries. -/
theorem rrLoop_entry_mono (sorted : List (DeviceId × ℚ)) (x : Task) (d' : DeviceId) :
    ∀ (ts : List Task) (i : ℕ) (acc : List (DeviceId × List Task)),
      x ∈ ((acc.lookup d').getD []) →
      x ∈ (((rrLoop sorted i ts acc).lookup d').getD []) := by
  intro ts
  induction ts with
  | nil => intro i acc h; exact h
  | cons t ts ih =>
      intro i acc h
      rw [rrLoop]
      refine ih (i + 1) _ ?_
      rw [dictAppend_eq_extend]
      exact mem_lookup_dictExtend_mono _ d' [t] x acc h

/-- Round-robin placement: the `j`-th pending task lands in the entry
of `sorted[(i+j) % k]`. -/
theorem rrLoop_place (sorted : List (DeviceId × ℚ)) :
    ∀ (ts : List Task) (i : ℕ) (acc : List (DeviceId × List Task)) (j : ℕ)
      (hj : j < ts.length),
      ts.get ⟨j, hj⟩ ∈
        (((rrLoop sorted i ts acc).lookup (nthDevice sorted (i + j))).getD []) := by
  intro ts
  induction ts with
  | nil => intro i acc j hj; cases hj
  | cons t ts ih =>
      intro i acc j hj
      cases j with
      | zero =>
          rw [rrLoop, Nat.add_zero]
          show t ∈ _
          refine rrLoop_entry_mono sorted t _ ts (i + 1) _ ?_
          rw [dictAppend_eq_extend]
          exact mem_lookup_dictExtend_self _ [t] t (List.mem_singleton_self t) acc
      | succ j =>
          rw [rrLoop]
          have harith : i + (j + 1) = (i + 1) + j := by omega
          rw [harith]
          exact ih (i + 1) _ j (Nat.lt_of_succ_lt_succ hj)

/-- The round-robin loop preserves the task pool (up to permutation),
preserves key nodup-ness, and introduces only keys of the sorted score
table. -/
theorem rrLoop_spec (sorted : List (DeviceId × ℚ)) (hne : sorted ≠ []) :
    ∀ (ts : List Task) (i : ℕ) (acc : List (DeviceId × List Task)),
      (acc.map Prod.fst).Nodup →
      (((rrLoop sorted i ts acc).map (fun p => p.2)).flatten).Perm
        ((acc.map (fun p => p.2)).flatten ++ ts) ∧
      ((rrLoop sorted i ts acc).map Prod.fst).Nodup ∧
      (∀ k, k ∈ (rrLoop sorted i ts acc).map Prod.fst →
        k ∈ acc.map Prod.fst ∨ k ∈ sorted.map Prod.fst) := by
  intro ts
  induction ts with
  | nil =>
      intro i acc hnd
      exact ⟨by simp [rrLoop], hnd, fun k hk => Or.inl hk⟩
  | cons t ts ih =>
      intro i acc hnd
      rw [rrLoop]
      have hnd' : ((dictAppend (nthDevice sorted i) t acc).map Prod.fst).Nodup := by
        rw [dictAppend_eq_extend]
        exact nodup_keys_dictExtend _ [t] acc hnd
      obtain ⟨ihp, ihnd, ihk⟩ := ih (i + 1) (dictAppend (nthDevice sorted i) t acc) hnd'
      refine ⟨?_, ihnd, ?_⟩
      · refine ihp.trans ?_
        have hstep : (((dictAppend (nthDevice sorted i) t acc).map
            (fun p => p.2)).flatten).Perm ((acc.map (fun p => p.2)).flatten ++ [t]) := by
          rw [dictAppend_eq_extend]
          exact flatten_dictExtend _ [t] acc hnd
        refine (hstep.append_right ts).trans ?_
        rw [List.append_assoc]
        rfl
      · intro k hk
        rcases ihk k hk with hk' | hk'
        · rw [dictAppend_eq_extend] at hk'
          rcases mem_keys_dictExtend _ [t] acc k hk' with rfl | hk''
          · exact Or.inr (nthDevice_mem sorted i hne)
          · exact Or.inl hk''
        · exact Or.inr hk'

/-- Erasing a batch of keys leaves only original keys. -/
theorem mem_keys_eraseFold {β : Type} :
    ∀ (ds : List DeviceId) (l : List (DeviceId × β)) (k : DeviceId),
      k ∈ (ds.foldl (fun sc x => dictErase x sc) l).map Prod.fst →
      k ∈ l.map Prod.fst := by
  intro ds
  induction ds with
  | nil => intro l k hk; exact hk
  | cons f ds ih =>
      intro l k hk
      rw [List.foldl_cons] at hk
      exact ((mem_keys_dictErase f k l).1 (ih _ k hk)).1

/-- Every erased key is gone after the erasing fold. -/
theorem not_mem_keys_eraseFold {β : Type} :
    ∀ (ds : List DeviceId) (l : List (DeviceId × β)) (d : DeviceId), d ∈ ds →
      d ∉ (ds.foldl (fun sc x => dictErase x sc) l).map Prod.fst := by
  intro ds
  induction ds with
  | nil => intro l d hd; cases hd
  | cons f ds ih =>
      intro l d hd hk
      rw [List.foldl_cons] at hk
      rcases List.mem_cons.1 hd with rfl | hd'
      · exact ((mem_keys_dictErase d d l).1 (mem_keys_eraseFold ds _ d hk)).2 rfl
      · exact ih _ d hd' hk

/-- Pulling the failed devices' entries: the pool plus the kept entries
permute to the original tasks, keys stay nodup and original, and no
failed key survives. -/
theorem pullLoop_spec :
    ∀ (failed : List DeviceId) (a : List (DeviceId × List Task)),
      (a.map Prod.fst).Nodup →
      ((a.map (fun p => p.2)).flatten).Perm
        ((pullLoop failed a).1 ++
          (((pullLoop failed a).2).map (fun p => p.2)).flatten) ∧
      (((pullLoop failed a).2).map Prod.fst).Nodup ∧
      (∀ k, k ∈ ((pullLoop failed a).2).map Prod.fst → k ∈ a.map Prod.fst) ∧
      (∀ d ∈ failed, d ∉ ((pullLoop failed a).2).map Prod.fst) := by
  intro failed
  induction failed with
  | nil =>
      intro a hnd
      exact ⟨List.Perm.refl _, hnd, fun k hk => hk,
        fun d hd => absurd hd (List.not_mem_nil d)⟩
  | cons d ds ih =>
      intro a hnd
      cases hl : a.lookup d with
      | some ts =>
          have hrw : pullLoop (d :: ds) a =
              (ts ++ (pullLoop ds (dictErase d a)).1, (pullLoop ds (dictErase d a)).2) := by
            simp [pullLoop, hl]
          obtain ⟨ihp, ihnd, ihsub, ihnot⟩ := ih (dictErase d a) (nodup_keys_dictErase d a hnd)
          have hstep := flatten_lookup_dictErase d a ts hnd hl
          refine ⟨?_, by rw [hrw]; exact ihnd, ?_, ?_⟩
          · rw [hrw]
            refine hstep.trans ?_
            rw [List.append_assoc]
            exact ihp.append_left ts
          · intro k hk
            rw [hrw] at hk
            exact ((mem_keys_dictErase d k a).1 (ihsub k hk)).1
          · intro x hx
            rw [hrw]
            rcases List.mem_cons.1 hx with rfl | hx'
            · intro hmem
              exact ((mem_keys_dictErase x x a).1 (ihsub x hmem)).2 rfl
            · exact ihnot x hx'
      | none =>
          have hrw : pullLoop (d :: ds) a = pullLoop ds a := by
            simp [pullLoop, hl]
          obtain ⟨ihp, ihnd, ihsub, ihnot⟩ := ih a hnd
          have hdnot : d ∉ a.map Prod.fst := lookup_none_not_mem_keys d a hl
          refine ⟨by rw [hrw]; exact ihp, by rw [hrw]; exact ihnd,
            by rw [hrw]; exact ihsub, ?_⟩
          intro x hx
          rw [hrw]
          rcases List.mem_cons.1 hx with rfl | hx'
          · exact fun hmem => hdnot (ihsub x hmem)
          · exact ihnot x hx'

/-- Folding `dictExtend` over a reassignment dict appends exactly its
tasks to the pool and introduces only its keys. -/
theorem flatten_extendFold :
    ∀ (r : List (DeviceId × List Task)) (a : List (DeviceId × List Task)),
      (a.map Prod.fst).Nodup →
      (((r.foldl (fun a p => dictExtend p.1 p.2 a) a).map (fun p => p.2)).flatten).Perm
        ((a.map (fun p => p.2)).flatten ++ (r.map (fun p => p.2)).flatten) ∧
      (∀ k, k ∈ (r.foldl (fun a p => dictExtend p.1 p.2 a) a).map Prod.fst →
        k ∈ a.map Prod.fst ∨ k ∈ r.map Prod.fst) := by
  intro r
  induction r with
  | nil =>
      intro a hnd
      exact ⟨by simp, fun k hk => Or.inl hk⟩
  | cons p r ih =>
      intro a hnd
      rw [List.foldl_cons]
      obtain ⟨ihp, ihk⟩ := ih (dictExtend p.1 p.2 a) (nodup_keys_dictExtend p.1 p.2 a hnd)
      constructor
      · refine ihp.trans ?_
        refine ((flatten_dictExtend p.1 p.2 a hnd).append_right _).trans ?_
        rw [List.append_assoc]
        exact List.Perm.refl _
      · intro k hk
        rcases ihk k hk with hk' | hk'
        · rcases mem_keys_dictExtend p.1 p.2 a k hk' with rfl | hk2
          · right
            rw [List.map_cons]
            exact List.mem_cons_self _ _
          · exact Or.inl hk2
        · right
          rw [List.map_cons]
          exact List.mem_cons_of_mem _ hk'

/-- C2: `reassign_tasks`, called with failed nodes while at least one
healthy scored peer remains, removes every failed node's entry from the
assignment, preserves the task pool exactly — the tasks across the
updated assignment are a permutation of the tasks across the original
one, so no task is lost and none duplicated — and places the `j`-th
pulled pending task (in original order) into the returned entry of peer
`j mod k` in descending-score order, which is then merged into the
kept entries. -/
theorem reassign_tasks_spec :
    ∀ (failed : List DeviceId) (hs : List (DeviceId × ℚ)) (st : SchedState),
      (st.task_assignments.map Prod.fst).Nodup →
      failed.foldl (fun sc d => dictErase d sc) hs ≠ [] →
      (∀ d ∈ failed,
        d ∉ ((reassign_tasks failed hs st).2.task_assignments).map Prod.fst) ∧
      ((((reassign_tasks failed hs st).2.task_assignments).map
          (fun p => p.2)).flatten).Perm
        ((st.task_assignments.map (fun p => p.2)).flatten) ∧
      (∀ j (hj : j < (pullLoop failed st.task_assignments).1.length),
        (pullLoop failed st.task_assignments).1.get ⟨j, hj⟩ ∈
          (((reassign_tasks failed hs st).1).lookup
            (nthDevice (sortDesc (fun p => p.2)
              (failed.foldl (fun sc d => dictErase d sc) hs)) j)).getD []) := by
  intro failed hs st hnd hhealthy
  by_cases hf : failed = []
  · subst hf
    have hrw : reassign_tasks [] hs st = ([], st) := rfl
    refine ⟨fun d hd => absurd hd (List.not_mem_nil d), ?_, ?_⟩
    · rw [hrw]
    · intro j hj
      have h0 : (pullLoop ([] : List DeviceId) st.task_assignments).1 = [] := rfl
      rw [h0] at hj
      exact absurd hj (by simp)
  · obtain ⟨pullp, pullnd, pullsub, pullnot⟩ := pullLoop_spec failed st.task_assignments hnd
    by_cases hp : (pullLoop failed st.task_assignments).1 = []
    · have hrw : reassign_tasks failed hs st =
          ([], { st with task_assignments := (pullLoop failed st.task_assignments).2 }) := by
        simp only [reassign_tasks]
        rw [if_neg hf, if_pos hp]
      refine ⟨?_, ?_, ?_⟩
      · intro d hd
        rw [hrw]
        exact pullnot d hd
      · rw [hrw]
        have hperm := pullp
        rw [hp, List.nil_append] at hperm
        exact hperm.symm
      · intro j hj
        rw [hp] at hj
        exact absurd hj (by simp)
    · have hrw : reassign_tasks failed hs st =
          (rrLoop (sortDesc (fun p => p.2)
              (failed.foldl (fun sc d => dictErase d sc) hs)) 0
            (pullLoop failed st.task_assignments).1 [],
           { task_assignments :=
               (rrLoop (sortDesc (fun p => p.2)
                   (failed.foldl (fun sc d => dictErase d sc) hs)) 0
                 (pullLoop failed st.task_assignments).1 []).foldl
                 (fun a p => dictExtend p.1 p.2 a)
                 (pullLoop failed st.task_assignments).2,
             reassigned_tasks :=
               (pullLoop failed st.task_assignments).1.foldl
                 (fun s tk => insert tk.id s) st.reassigned_tasks }) := by
        simp only [reassign_tasks]
        rw [if_neg hf, if_neg hp, if_neg hhealthy]
      have hsortedne : sortDesc (fun p => (p : DeviceId × ℚ).2)
          (failed.foldl (fun sc d => dictErase d sc) hs) ≠ [] := by
        intro h0
        apply hhealthy
        have hl := (sortDesc_perm (fun p => (p : DeviceId × ℚ).2)
          (failed.foldl (fun sc d => dictErase d sc) hs)).length_eq
        rw [h0] at hl
        exact List.length_eq_zero.1 hl.symm
      obtain ⟨rrp, rrnd, rrk⟩ := rrLoop_spec _ hsortedne
        (pullLoop failed st.task_assignments).1 0 [] (by simp)
      obtain ⟨mergep, mergek⟩ := flatten_extendFold
        (rrLoop (sortDesc (fun p => p.2)
            (failed.foldl (fun sc d => dictErase d sc) hs)) 0
          (pullLoop failed st.task_assignments).1 [])
        (pullLoop failed st.task_assignments).2 pullnd
      refine ⟨?_, ?_, ?_⟩
      · intro d hd
        rw [hrw]
        intro hkmem
        rcases mergek d hkmem with hk1 | hk2
        · exact pullnot d hd hk1
        · rcases rrk d hk2 with h0 | hsortk
          · simp at h0
          · have hmem : d ∈ (failed.foldl
                (fun sc x => dictErase x sc) hs).map Prod.fst :=
              ((sortDesc_perm (fun p => (p : DeviceId × ℚ).2) _).map Prod.fst).mem_iff.1
                hsortk
            exact not_mem_keys_eraseFold failed hs d hd hmem
      · rw [hrw]
        refine mergep.trans ?_
        have hrr : (((rrLoop (sortDesc (fun p => p.2)
              (failed.foldl (fun sc d => dictErase d sc) hs)) 0
            (pullLoop failed st.task_assignments).1 []).map
              (fun p => p.2)).flatten).Perm
            ((pullLoop failed st.task_assignments).1) := by
          simpa using rrp
        refine (hrr.append_left _).trans ?_
        refine List.perm_append_comm.trans ?_
        exact pullp.symm
      · intro j hj
        rw [hrw]
        have hplace := rrLoop_place (sortDesc (fun p => p.2)
            (failed.foldl (fun sc d => dictErase d sc) hs))
          (pullLoop failed st.task_assignments).1 0 [] j hj
        rw [Nat.zero_add] at hplace
        exact hplace

/-- Witness for C2: assignment `{A:[t1,t2], B:[t3]}`, failed node `A`,
healthy peers `B` and `C` — `A`'s entry is gone and the three tasks
survive as a permutation of the original pool. -/
theorem reassign_tasks_spec_witness :
    "A" ∉ ((reassign_tasks ["A"] c2Scores c2State).2.task_assignments).map Prod.fst ∧
    ((((reassign_tasks ["A"] c2Scores c2State).2.task_assignments).map
        (fun p => p.2)).flatten).Perm
      ((c2State.task_assignments.map (fun p => p.2)).flatten) :=
  ⟨(reassign_tasks_spec ["A"] c2Scores c2State (by decide) (by decide)).1 "A"
      (by decide),
   (reassign_tasks_spec ["A"] c2Scores c2State (by decide) (by decide)).2.1⟩

/-- Once the loop check sees an expired clock, `collectLoop` stops at
once, whatever the rest of the trace holds. -/
theorem collectLoop_expired (start timeout : ℚ) (e : IterEnv) (rest : List IterEnv)
    (st : CollectState) (h : start + timeout ≤ e.now) :
    collectLoop start timeout (e :: rest) st = st := by
  rw [collectLoop]
  rw [if_neg]
  rintro ⟨h1, -⟩
  linarith

/-- Everything in the trace beyond the first expired check is
irrelevant to `collectLoop`'s result. -/
theorem collectLoop_after_deadline (start timeout : ℚ) (e : IterEnv)
    (rest rest' : List IterEnv) (h : start + timeout ≤ e.now) :
    ∀ (pre : List IterEnv) (st : CollectState),
      collectLoop start timeout (pre ++ e :: rest) st =
        collectLoop start timeout (pre ++ e :: rest') st := by
  intro pre
  induction pre with
  | nil =>
      intro st
      rw [List.nil_append, List.nil_append, collectLoop_expired start timeout e rest st h,
        collectLoop_expired start timeout e rest' st h]
  | cons p pre ih =>
      intro st
      rw [List.cons_append, List.cons_append, collectLoop, collectLoop]
      by_cases hc : p.now - start < timeout ∧ st.pending ≠ []
      · rw [if_pos hc, if_pos hc, ih]
      · rw [if_neg hc, if_neg hc]

/-- C4 (amended): `collect_results` stops at the first loop check at
which the deadline has expired — it performs no further polling there,
returns the partial map of results gathered so far, and nothing that
happens after that point in the trace can influence its return value.
Deadline expiry is an ordinary return, not an error.  However, contrary
to the claim, the still-missing task ids are NOT part of the return
value: the function returns only the result map (see the
counterexample `collect_results_lacks_missing_ids`). -/
theorem collect_results_deadline_spec :
    ∀ (start timeout : ℚ) (e : IterEnv) (rest rest' : List IterEnv)
      (st : CollectState) (a : List (DeviceId × List Task)) (lid : DeviceId)
      (lres : List (TaskId × String)) (sched : SchedState) (pre : List IterEnv),
      start + timeout ≤ e.now →
      collectLoop start timeout (e :: rest) st = st ∧
      collect_results a timeout lid lres start (pre ++ e :: rest) sched =
        collect_results a timeout lid lres start (pre ++ e :: rest') sched := by
  intro start timeout e rest rest' st a lid lres sched pre h
  refine ⟨collectLoop_expired start timeout e rest st h, ?_⟩
  simp only [collect_results]
  rw [collectLoop_after_deadline start timeout e rest rest' h]

/-- Witness for C4: with the deadline 5 already expired at the first
check (clock 100), the loop returns its state unchanged, and a trailing
extra iteration in the trace does not change the outcome. -/
theorem collect_results_deadline_spec_witness :
    collectLoop 0 5 [⟨100, [], [], fun _ => none⟩] ⟨[], [], ⟨[], ∅⟩⟩ = ⟨[], [], ⟨[], ∅⟩⟩ ∧
    collect_results c4a2 5 "L" [] 0 ([] ++ ⟨100, [], [], fun _ => none⟩ :: []) ⟨[], ∅⟩ =
      collect_results c4a2 5 "L" [] 0
        ([] ++ ⟨100, [], [], fun _ => none⟩ :: [⟨0, [], [], fun _ => none⟩]) ⟨[], ∅⟩ :=
  collect_results_deadline_spec 0 5 ⟨100, [], [], fun _ => none⟩ []
    [⟨0, [], [], fun _ => none⟩] ⟨[], [], ⟨[], ∅⟩⟩ c4a2 "L" [] ⟨[], ∅⟩ [] (by norm_num)

/-- C6: for any profile with used percentages in range, the capability
score is exactly `0.5*(100-cpu) + 0.4*(100-mem) + 0.1*bonus` with the
claimed battery ladder (15 / 10 / 5 / 0, absent battery 0), the result
is non-negative, a missing profile scores 0, and the idle full-battery
device strictly outscores the saturated empty-battery one
(91.5 versus 0).  The function is a pure Lean function of its argument,
hence deterministic. -/
theorem calculate_device_score_spec :
    (∀ p : Profile, 0 ≤ p.cpu_percent → p.cpu_percent ≤ 100 →
      0 ≤ p.memory_percent → p.memory_percent ≤ 100 →
      calculate_device_score (some p) =
        0.5 * (100 - p.cpu_percent) + 0.4 * (100 - p.memory_percent)
          + 0.1 * batteryBonus p.battery ∧
      0 ≤ calculate_device_score (some p)) ∧
    calculate_device_score none = 0 ∧
    (∀ b : ℚ, batteryBonus (some b) =
      if b > 80 then 15 else if b > 50 then 10 else if b > 20 then 5 else 0) ∧
    batteryBonus none = 0 ∧
    calculate_device_score (some ⟨0, 0, some 100⟩) >
      calculate_device_score (some ⟨100, 100, some 0⟩) := by
  refine ⟨fun p hc0 hc1 hm0 hm1 => ⟨rfl, ?_⟩, rfl, fun b => rfl, rfl, ?_⟩
  · have hb : 0 ≤ batteryBonus p.battery := by
      rcases p.battery with _ | b
      · simp [batteryBonus]
      · simp only [batteryBonus]
        split <;> norm_num
        split <;> norm_num
        split <;> norm_num
    simp only [calculate_device_score]
    nlinarith
  · norm_num [calculate_device_score, batteryBonus]

/-- Witness for C6 at the profile `{cpu: 20, mem: 40, battery: 90}`. -/
theorem calculate_device_score_spec_witness :
    calculate_device_score (some ⟨20, 40, some 90⟩) =
      0.5 * (100 - (20 : ℚ)) + 0.4 * (100 - (40 : ℚ))
        + 0.1 * batteryBonus (some 90) ∧
    0 ≤ calculate_device_score (some ⟨20, 40, some 90⟩) :=
  calculate_device_score_spec.1 ⟨20, 40, some 90⟩ (by norm_num) (by norm_num)
    (by norm_num) (by norm_num)

/-- C8 counterexample: a duplicate registration of an already-known
worker is answered with status `"registered"`, not `"error"` — the
handler only skips the directory update but still replies success, so
the claim's "malformed **or duplicate** → status error" fails on the
duplicate half (the directory is indeed left unchanged). -/
theorem duplicate_registration_replies_registered :
    (process_message c8State c8DupMsg).1.status = "registered" ∧
    (process_message c8State c8DupMsg).1.status ≠ "error" ∧
    (process_message c8State c8DupMsg).2 = c8State := by
  decide

/-- C8 (amended): for every registration request the coordinator's
message processor leaves the peer directory (registered peer list and
stored capabilities) unchanged unless the request is a well-formed,
previously unseen worker registration; a malformed request
(`node_type != "worker"`) is answered `{status:"error"}` with the state
untouched, while a duplicate registration of an already-known worker
URL leaves the state untouched but is answered `{status:"registered"}`,
not `{status:"error"}`. -/
theorem register_error_paths_preserve_directory :
    ∀ (st : DeviceState) (m : Msg),
      st.is_coordinator = true →
      m.action.getD "" = "register" →
      (m.node_type ≠ some "worker" →
        process_message st m = (.errorReply "Invalid registration", st)) ∧
      (m.node_type = some "worker" →
        st.peers.all
          (fun p => ! (p.url == "tcp://" ++ pyStr m.address ++ ":" ++ pyStrNat m.port))
            = false →
        process_message st m = (.registered st.node_id, st)) := by
  intro st m hc ha
  constructor
  · intro hnt
    simp [process_message, ha, hc, hnt]
  · intro hnt hdup
    simp [process_message, ha, hc, hnt, hdup]

/-- Witness for C8 at a malformed (coordinator-typed) registration and
at the duplicate registration of `c8State`'s known worker. -/
theorem register_error_paths_witness :
    process_message c8State
        ⟨some "register", some "coordinator", some "9.9.9.9", some 1, some [], none, none⟩
      = (.errorReply "Invalid registration", c8State) ∧
    process_message c8State c8DupMsg = (.registered c8State.node_id, c8State) :=
  ⟨(register_error_paths_preserve_directory c8State
      ⟨some "register", some "coordinator", some "9.9.9.9", some 1, some [], none, none⟩
      (by decide) (by decide)).1 (by decide),
   (register_error_paths_preserve_directory c8State c8DupMsg
      (by decide) (by decide)).2 (by decide) (by decide)⟩

end EdgeShift
